import Mathlib

/-!
Verification of the blockchain voting ledger (`src/voting.py`).

The single class `BlockchainVotingSystem` is embedded shallowly:

* The SHA-256 hexdigest (`hashlib.sha256(...).hexdigest()`) is an external
  library primitive; it is modelled as an abstract parameter
  `H : String → List Char` (the digest as its list of hexadecimal
  characters).  Every claim below depends only on how the digest is used,
  never on its concrete value.
* `datetime.now()` is modelled by an explicit `now : Nat` argument to each
  operation; timestamps and the advisory election window are plain `Nat`s.
* Python's `set` of raw voter ids is modelled as a `List String` used only
  through membership; Python's `dict` (in the tally) is modelled as an
  association list with Python's insertion/update semantics, and a missing
  key (`KeyError`) or `max` over an empty dict (`ValueError`) becomes an
  explicit error value.
* A raised `ValueError` in `cast_vote` leaves the object unchanged, so
  `cast_vote` returns an `Except` result paired with the (possibly
  unchanged) state.
-/

/-- A vote record as built by `cast_vote`: hashed voter id, candidate,
timestamp (`datetime.now().isoformat()` modelled as a `Nat`). -/
structure Vote where
  voter_id : List Char
  candidate : String
  timestamp : Nat
deriving DecidableEq

/-- A block dictionary as built by `create_block`. -/
structure Block where
  index : Nat
  timestamp : Nat
  votes : List Vote
  proof : Int
  previous_hash : String
  election_name : String
deriving DecidableEq

/-- The mutable state of a `BlockchainVotingSystem` instance. -/
structure VotingState where
  chain : List Block
  pending_votes : List Vote
  candidates : List String
  election_name : String
  election_start : Nat
  election_end : Nat
  voted_voters : List String
deriving DecidableEq

/-- The two `ValueError`s that `cast_vote` can raise.  `invalidCandidate`
carries the configured candidate list, which the Python message
`f"Invalid candidate. Choose from: {self.candidates}"` enumerates. -/
inductive VoteError where
  | invalidCandidate (valid : List String)
  | duplicateVoter
deriving DecidableEq

/-- The message text of each `ValueError` raised by `cast_vote`. -/
def VoteError.message : VoteError → String
  | .invalidCandidate valid => "Invalid candidate. Choose from: " ++ toString valid
  | .duplicateVoter => "This voter has already cast a vote"

/-- `hash_voter_id`: applies the (abstract) SHA-256 hexdigest to the raw id. -/
def hash_voter_id (H : String → List Char) (voter_id : String) : List Char :=
  H voter_id

/-- `create_block(proof, previous_hash)`: builds the block, clears the
pending buffer, appends the block to the chain and returns it. -/
def create_block (s : VotingState) (proof : Int) (previous_hash : String)
    (now : Nat) : Block × VotingState :=
  let block : Block :=
    { index := s.chain.length + 1
      timestamp := now
      votes := s.pending_votes
      proof := proof
      previous_hash := previous_hash
      election_name := s.election_name }
  (block, { s with pending_votes := [], chain := s.chain ++ [block] })

/-- `__init__(election_name, candidates, voting_duration_days)`: empty chain,
buffer and registry, advisory election window, then the genesis block via
`create_block(previous_hash="0", proof=100)`. -/
def initVotingSystem (election_name : String) (candidates : List String)
    (voting_duration_days : Nat) (now : Nat) : VotingState :=
  let s0 : VotingState :=
    { chain := []
      pending_votes := []
      candidates := candidates
      election_name := election_name
      election_start := now
      election_end := now + voting_duration_days
      voted_voters := [] }
  (create_block s0 100 "0" now).2

/-- `cast_vote(voter_id, candidate)`: candidate check first, then the
double-vote check; on success the vote is appended to the pending buffer
and the raw id is added to the registry.  A raised error leaves the state
unchanged. -/
def cast_vote (H : String → List Char) (s : VotingState)
    (voter_id candidate : String) (now : Nat) :
    Except VoteError Vote × VotingState :=
  if candidate ∈ s.candidates then
    if voter_id ∈ s.voted_voters then
      (.error .duplicateVoter, s)
    else
      let vote : Vote :=
        { voter_id := hash_voter_id H voter_id
          candidate := candidate
          timestamp := now }
      (.ok vote,
        { s with
            pending_votes := s.pending_votes ++ [vote]
            voted_voters := voter_id :: s.voted_voters })
  else
    (.error (.invalidCandidate s.candidates), s)

/-- One caller-visible mutating operation on the ledger. -/
inductive Op where
  | castVote (voter_id candidate : String) (now : Nat)
  | createBlock (proof : Int) (previous_hash : String) (now : Nat)

/-- Apply one operation to the state (a failed `cast_vote` leaves the state
unchanged, exactly as the raised exception does in Python). -/
def applyOp (H : String → List Char) (s : VotingState) : Op → VotingState
  | .castVote v c t => (cast_vote H s v c t).2
  | .createBlock p ph t => (create_block s p ph t).2

/-- Run a sequence of operations. -/
def run (H : String → List Char) (s : VotingState) : List Op → VotingState
  | [] => s
  | op :: ops => run H (applyOp H s op) ops

lemma cast_vote_snd_candidates (H : String → List Char) (s : VotingState)
    (v c : String) (t : Nat) :
    ((cast_vote H s v c t).2).candidates = s.candidates := by
  unfold cast_vote
  split
  · split
    · rfl
    · rfl
  · rfl

lemma cast_vote_snd_voted_mono (H : String → List Char) (s : VotingState)
    (v c w : String) (t : Nat) (hw : w ∈ s.voted_voters) :
    w ∈ ((cast_vote H s v c t).2).voted_voters := by
  unfold cast_vote
  split
  · split
    · exact hw
    · exact List.mem_cons_of_mem _ hw
  · exact hw

lemma applyOp_candidates (H : String → List Char) (s : VotingState) (op : Op) :
    (applyOp H s op).candidates = s.candidates := by
  cases op with
  | castVote v c t => exact cast_vote_snd_candidates H s v c t
  | createBlock p ph t => rfl

lemma applyOp_voted_mono (H : String → List Char) (s : VotingState) (op : Op)
    (w : String) (hw : w ∈ s.voted_voters) :
    w ∈ (applyOp H s op).voted_voters := by
  cases op with
  | castVote v c t => exact cast_vote_snd_voted_mono H s v c w t hw
  | createBlock p ph t => exact hw

lemma run_candidates (H : String → List Char) (s : VotingState)
    (ops : List Op) : (run H s ops).candidates = s.candidates := by
  induction ops generalizing s with
  | nil => rfl
  | cons op ops ih => rw [run, ih, applyOp_candidates]

lemma run_voted_mono (H : String → List Char) (s : VotingState)
    (ops : List Op) (w : String) (hw : w ∈ s.voted_voters) :
    w ∈ (run H s ops).voted_voters := by
  induction ops generalizing s with
  | nil => exact hw
  | cons op ops ih => exact ih _ (applyOp_voted_mono H s op w hw)

lemma cast_vote_snd_chain (H : String → List Char) (s : VotingState)
    (v c : String) (t : Nat) :
    ((cast_vote H s v c t).2).chain = s.chain := by
  unfold cast_vote
  split
  · split
    · rfl
    · rfl
  · rfl

lemma applyOp_chain_append (H : String → List Char) (s : VotingState)
    (op : Op) : ∃ rest, (applyOp H s op).chain = s.chain ++ rest := by
  cases op with
  | castVote v c t =>
    refine ⟨[], ?_⟩
    rw [List.append_nil]
    exact cast_vote_snd_chain H s v c t
  | createBlock p ph t => exact ⟨[(create_block s p ph t).1], rfl⟩

lemma run_chain_append (H : String → List Char) (s : VotingState)
    (ops : List Op) : ∃ rest, (run H s ops).chain = s.chain ++ rest := by
  induction ops generalizing s with
  | nil => exact ⟨[], (List.append_nil _).symm⟩
  | cons op ops ih =>
    obtain ⟨r1, h1⟩ := applyOp_chain_append H s op
    obtain ⟨r2, h2⟩ := ih (applyOp H s op)
    exact ⟨r1 ++ r2, by rw [run, h2, h1, List.append_assoc]⟩

/-- `valid_proof(last_proof, proof)`: SHA-256 hexdigest of the decimal
textual concatenation `f'\x7blast_proof\x7d\x7bproof\x7d'`, accepted iff
the first four characters of the digest are `"0000"`. -/
def valid_proof (H : String → List Char) (last_proof : Int) (proof : Int) :
    Bool :=
  decide ((H (toString last_proof ++ toString proof)).take 4
    = ['0', '0', '0', '0'])

/-- The `while not valid_proof: proof += 1` loop of `proof_of_work`, made
structurally recursive on an explicit fuel bound; `none` means the fuel ran
out before a valid proof was found. -/
def powLoopFuel (H : String → List Char) (last_proof : Int) :
    Nat → Nat → Option Nat
  | 0, _ => none
  | fuel + 1, p =>
    if valid_proof H last_proof (Int.ofNat p) then some p
    else powLoopFuel H last_proof fuel (p + 1)

/-- `proof_of_work(last_proof)`: linear search from 0 for the first valid
proof, with an explicit fuel bound standing in for the unbounded loop. -/
def proof_of_work (H : String → List Char) (last_proof : Int) (fuel : Nat) :
    Option Nat :=
  powLoopFuel H last_proof fuel 0

lemma take_four_eq_iff (xs : List Char) :
    xs.take 4 = ['0', '0', '0', '0'] ↔
      ∃ rest, xs = '0' :: '0' :: '0' :: '0' :: rest := by
  constructor
  · intro h
    refine ⟨xs.drop 4, ?_⟩
    conv_lhs => rw [← List.take_append_drop 4 xs]
    rw [h]
    rfl
  · rintro ⟨rest, rfl⟩
    rfl

lemma powLoopFuel_finds (H : String → List Char) (last_proof : Int) :
    ∀ (fuel p k : Nat), k < fuel →
      valid_proof H last_proof (Int.ofNat (p + k)) = true →
      ∃ y, powLoopFuel H last_proof fuel p = some y ∧
        valid_proof H last_proof (Int.ofNat y) = true ∧ p ≤ y ∧
        ∀ z, p ≤ z → z < y →
          valid_proof H last_proof (Int.ofNat z) = false := by
  intro fuel
  induction fuel with
  | zero => intro p k hk; omega
  | succ fuel ih =>
    intro p k hk hval
    by_cases hp : valid_proof H last_proof (Int.ofNat p) = true
    · refine ⟨p, ?_, hp, le_refl p, ?_⟩
      · rw [powLoopFuel, if_pos hp]
      · intro z hz hz'; omega
    · have hp' : valid_proof H last_proof (Int.ofNat p) = false := by
        simpa using hp
      cases k with
      | zero =>
        exfalso
        exact hp (by simpa using hval)
      | succ k =>
        have hval' : valid_proof H last_proof (Int.ofNat ((p + 1) + k))
            = true := by
          have : (p + 1) + k = p + (k + 1) := by omega
          rw [this]; exact hval
        obtain ⟨y, hy, hvy, hpy, hmin⟩ :=
          ih (p + 1) k (by omega) hval'
        refine ⟨y, ?_, hvy, by omega, ?_⟩
        · rw [powLoopFuel, if_neg hp]
          exact hy
        · intro z hz hz'
          rcases Nat.eq_or_lt_of_le hz with h | h
          · rw [← h]; exact hp'
          · exact hmin z (by omega) hz'

/-- Python dict assignment `d[k] = v` on an insertion-ordered association
list: update in place if the key exists, else append at the end. -/
def dictSet : List (String × Nat) → String → Nat → List (String × Nat)
  | [], k, v => [(k, v)]
  | (k', v') :: rest, k, v =>
    if k' = k then (k, v) :: rest else (k', v') :: dictSet rest k v

/-- Python dict lookup `d.get(k)`. -/
def dictGet : List (String × Nat) → String → Option Nat
  | [], _ => none
  | (k', v') :: rest, k => if k' = k then some v' else dictGet rest k

/-- The keys of a dict, in insertion order. -/
def dictKeys (d : List (String × Nat)) : List String := d.map Prod.fst

/-- `sum(d.values())`. -/
def sumValues (d : List (String × Nat)) : Nat := (d.map Prod.snd).sum

/-- The two exceptions `get_election_results` can raise: a `KeyError` from
`vote_counts[vote['candidate']] += 1` on an unknown candidate, and the
`ValueError` from `max` applied to an empty dict. -/
inductive TallyError where
  | keyError (key : String)
  | emptySequence
deriving DecidableEq

/-- `vote_counts[c] += 1`: `KeyError` when `c` is not a key. -/
def dictIncr (d : List (String × Nat)) (k : String) :
    Except TallyError (List (String × Nat)) :=
  match dictGet d k with
  | none => .error (.keyError k)
  | some v => .ok (dictSet d k (v + 1))

/-- The inner loop `for vote in block.get('votes', [])`. -/
def tallyVotes (d : List (String × Nat)) :
    List Vote → Except TallyError (List (String × Nat))
  | [] => .ok d
  | vt :: rest =>
    match dictIncr d vt.candidate with
    | .error e => .error e
    | .ok d' => tallyVotes d' rest

/-- The outer loop `for block in self.chain`. -/
def tallyChain (d : List (String × Nat)) :
    List Block → Except TallyError (List (String × Nat))
  | [] => .ok d
  | b :: rest =>
    match tallyVotes d b.votes with
    | .error e => .error e
    | .ok d' => tallyChain d' rest

/-- The scan of Python's `max(keys, key=vote_counts.get)`: the running best
key is replaced only on a strictly greater value, so the first maximum in
iteration order wins. -/
def maxKeyAux (bk : String) (bv : Nat) : List (String × Nat) → String
  | [] => bk
  | (k, v) :: rest =>
    if bv < v then maxKeyAux k v rest else maxKeyAux bk bv rest

/-- `max(vote_counts, key=vote_counts.get)`; `none` is the `ValueError`
raised on an empty dict. -/
def maxKey : List (String × Nat) → Option String
  | [] => none
  | (k, v) :: rest => some (maxKeyAux k v rest)

/-- `\x7bcandidate: 0 for candidate in self.candidates\x7d`. -/
def initCounts (candidates : List String) : List (String × Nat) :=
  candidates.foldl (fun d c => dictSet d c 0) []

/-- The result dictionary returned by `get_election_results`. -/
structure ElectionResults where
  election_name : String
  total_votes : Nat
  results : List (String × Nat)
  winner : String
deriving DecidableEq

/-- `get_election_results(force_close)`: zero-initialised per-candidate
counters, one increment per committed vote across all blocks in order, and
the result dictionary with the total, the counters and the winner.  The
`force_close` argument is accepted and never read, exactly as in the
source. -/
def get_election_results (s : VotingState) (force_close : Bool) :
    Except TallyError ElectionResults :=
  match tallyChain (initCounts s.candidates) s.chain with
  | .error e => .error e
  | .ok counts =>
    match maxKey counts with
    | none => .error .emptySequence
    | some w =>
      .ok { election_name := s.election_name
            total_votes := sumValues counts
            results := counts
            winner := w }

/-- Specification-side count: the number of committed votes for candidate
`c` across all blocks of `chain` ("the number of committed votes for that
candidate across all blocks"). -/
def countVotesFor (c : String) (chain : List Block) : Nat :=
  (chain.map (fun b => b.votes.countP (fun vt => vt.candidate == c))).sum

/-- Specification-side count: the total number of committed votes across
all blocks of `chain`. -/
def totalVotesIn (chain : List Block) : Nat :=
  (chain.map (fun b => b.votes.length)).sum

lemma dictGet_map (cs : List String) (g : String → Nat) (a : String) :
    dictGet (cs.map fun c => (c, g c)) a =
      if a ∈ cs then some (g a) else none := by
  induction cs with
  | nil => rfl
  | cons c cs ih =>
    simp only [List.map_cons, dictGet, ih]
    by_cases hca : c = a
    · subst hca
      simp [List.mem_cons]
    · simp [hca, List.mem_cons, Ne.symm hca]

lemma dictSet_map (cs : List String) (g : String → Nat) (a : String)
    (v : Nat) (hnd : cs.Nodup) (ha : a ∈ cs) :
    dictSet (cs.map fun c => (c, g c)) a v =
      cs.map fun c => (c, if c = a then v else g c) := by
  induction cs with
  | nil => cases ha
  | cons c cs ih =>
    rw [List.nodup_cons] at hnd
    simp only [List.map_cons, dictSet]
    by_cases hca : c = a
    · subst hca
      rw [if_pos rfl]
      simp only [if_pos rfl]
      congr 1
      apply List.map_congr_left
      intro b hb
      have : b ≠ c := fun h => hnd.1 (h ▸ hb)
      rw [if_neg this]
    · rw [if_neg hca, if_neg hca]
      congr 1
      exact ih hnd.2 ((List.mem_cons.mp ha).resolve_left fun h => hca h.symm)

lemma dictIncr_map (cs : List String) (g : String → Nat) (a : String)
    (hnd : cs.Nodup) (ha : a ∈ cs) :
    dictIncr (cs.map fun c => (c, g c)) a =
      .ok (cs.map fun c => (c, if c = a then g c + 1 else g c)) := by
  rw [dictIncr, dictGet_map, if_pos ha]
  show Except.ok (dictSet (cs.map fun c => (c, g c)) a (g a + 1)) = _
  rw [dictSet_map cs g a (g a + 1) hnd ha]
  congr 1
  apply List.map_congr_left
  intro b hb
  by_cases hba : b = a
  · subst hba; simp
  · simp [hba]

lemma tallyVotes_map (cs : List String) (hnd : cs.Nodup) :
    ∀ (votes : List Vote) (g : String → Nat),
      (∀ vt ∈ votes, vt.candidate ∈ cs) →
      tallyVotes (cs.map fun c => (c, g c)) votes =
        .ok (cs.map fun c =>
          (c, g c + votes.countP (fun vt => vt.candidate == c))) := by
  intro votes
  induction votes with
  | nil =>
    intro g hv
    simp [tallyVotes, List.countP_nil]
  | cons vt rest ih =>
    intro g hv
    have hmem : vt.candidate ∈ cs := hv vt (List.mem_cons_self vt rest)
    rw [tallyVotes, dictIncr_map cs g vt.candidate hnd hmem]
    show tallyVotes
      (cs.map fun c => (c, if c = vt.candidate then g c + 1 else g c)) rest = _
    rw [ih (fun c => if c = vt.candidate then g c + 1 else g c)
      (fun v hv' => hv v (List.mem_cons_of_mem vt hv'))]
    congr 1
    apply List.map_congr_left
    intro c _
    rw [List.countP_cons]
    by_cases hc : c = vt.candidate
    · subst hc
      simp
      omega
    · have : (vt.candidate == c) = false := by
        simp [beq_iff_eq]
        exact fun h => hc h.symm
      simp [this, hc]

lemma countVotesFor_cons (c : String) (b : Block) (rest : List Block) :
    countVotesFor c (b :: rest) =
      b.votes.countP (fun vt => vt.candidate == c) + countVotesFor c rest := by
  rw [countVotesFor, List.map_cons, List.sum_cons]
  rfl

lemma tallyChain_map (cs : List String) (hnd : cs.Nodup) :
    ∀ (chain : List Block) (g : String → Nat),
      (∀ b ∈ chain, ∀ vt ∈ b.votes, vt.candidate ∈ cs) →
      tallyChain (cs.map fun c => (c, g c)) chain =
        .ok (cs.map fun c => (c, g c + countVotesFor c chain)) := by
  intro chain
  induction chain with
  | nil =>
    intro g hv
    simp [tallyChain, countVotesFor]
  | cons b rest ih =>
    intro g hv
    rw [tallyChain,
      tallyVotes_map cs hnd b.votes g (hv b (List.mem_cons_self b rest))]
    show tallyChain
      (cs.map fun c =>
        (c, g c + b.votes.countP (fun vt => vt.candidate == c))) rest = _
    rw [ih (fun c => g c + b.votes.countP (fun vt => vt.candidate == c))
      (fun b' hb' => hv b' (List.mem_cons_of_mem b hb'))]
    congr 1
    apply List.map_congr_left
    intro c _
    simp only [Prod.mk.injEq, true_and]
    rw [countVotesFor_cons, countVotesFor]
    omega

lemma dictSet_fresh (d : List (String × Nat)) (k : String) (v : Nat)
    (hk : ∀ p ∈ d, p.1 ≠ k) : dictSet d k v = d ++ [(k, v)] := by
  induction d with
  | nil => rfl
  | cons p rest ih =>
    obtain ⟨k', v'⟩ := p
    rw [dictSet, if_neg (hk (k', v') (List.mem_cons_self _ rest))]
    rw [ih (fun q hq => hk q (List.mem_cons_of_mem _ hq))]
    rfl

lemma foldl_dictSet_zero (cs : List String) :
    ∀ d : List (String × Nat), cs.Nodup →
      (∀ c ∈ cs, ∀ p ∈ d, p.1 ≠ c) →
      cs.foldl (fun d c => dictSet d c 0) d =
        d ++ cs.map fun c => (c, 0) := by
  induction cs with
  | nil => intro d _ _; simp
  | cons c cs ih =>
    intro d hnd hfresh
    rw [List.nodup_cons] at hnd
    rw [List.foldl_cons,
      dictSet_fresh d c 0 (fun p hp => hfresh c (List.mem_cons_self c cs) p hp)]
    rw [ih (d ++ [(c, 0)]) hnd.2 ?fresh]
    · simp
    case fresh =>
      intro c' hc' p hp
      rcases List.mem_append.mp hp with h | h
      · exact hfresh c' (List.mem_cons_of_mem c hc') p h
      · rcases List.mem_singleton.mp h with rfl
        show c ≠ c'
        exact fun hcc => hnd.1 (by rw [hcc]; exact hc')

lemma initCounts_eq (cs : List String) (hnd : cs.Nodup) :
    initCounts cs = cs.map fun c => (c, 0) := by
  rw [initCounts, foldl_dictSet_zero cs [] hnd (fun _ _ _ h => absurd h (List.not_mem_nil _))]
  rfl

lemma tally_counts (s : VotingState) (hnd : s.candidates.Nodup)
    (hv : ∀ b ∈ s.chain, ∀ vt ∈ b.votes, vt.candidate ∈ s.candidates) :
    tallyChain (initCounts s.candidates) s.chain =
      .ok (s.candidates.map fun c => (c, countVotesFor c s.chain)) := by
  rw [initCounts_eq _ hnd,
    tallyChain_map s.candidates hnd s.chain (fun _ => 0) hv]
  simp

lemma sum_map_add (cs : List String) (f g : String → Nat) :
    (cs.map fun c => f c + g c).sum = (cs.map f).sum + (cs.map g).sum := by
  induction cs with
  | nil => rfl
  | cons c cs ih =>
    simp only [List.map_cons, List.sum_cons, ih]
    omega

lemma sum_if_zero (cs : List String) (x : String) (hx : x ∉ cs) :
    (cs.map fun c => if x = c then (1 : Nat) else 0).sum = 0 := by
  induction cs with
  | nil => rfl
  | cons c cs ih =>
    rw [List.map_cons, List.sum_cons,
      if_neg (fun h => hx (by rw [h]; exact List.mem_cons_self c cs)),
      ih (fun h => hx (List.mem_cons_of_mem c h))]

lemma sum_if_single (cs : List String) (x : String) (hnd : cs.Nodup)
    (hx : x ∈ cs) :
    (cs.map fun c => if x = c then (1 : Nat) else 0).sum = 1 := by
  induction cs with
  | nil => cases hx
  | cons c cs ih =>
    rw [List.nodup_cons] at hnd
    rw [List.map_cons, List.sum_cons]
    by_cases hxc : x = c
    · subst hxc
      rw [if_pos rfl, sum_if_zero cs x hnd.1]
    · rw [if_neg hxc, ih hnd.2 ((List.mem_cons.mp hx).resolve_left hxc)]

lemma sum_countP_votes (cs : List String) (hnd : cs.Nodup) :
    ∀ votes : List Vote, (∀ vt ∈ votes, vt.candidate ∈ cs) →
      (cs.map fun c => votes.countP (fun vt => vt.candidate == c)).sum
        = votes.length := by
  intro votes
  induction votes with
  | nil =>
    intro _
    simp [List.countP_nil]
  | cons vt rest ih =>
    intro hv
    have h1 : (cs.map fun c => (vt :: rest).countP (fun v => v.candidate == c))
        = cs.map fun c =>
            rest.countP (fun v => v.candidate == c)
              + if vt.candidate = c then 1 else 0 := by
      apply List.map_congr_left
      intro c _
      rw [List.countP_cons]
      by_cases h : vt.candidate = c
      · simp [h]
      · simp [beq_iff_eq, h]
    rw [h1, sum_map_add, ih (fun v hv' => hv v (List.mem_cons_of_mem vt hv')),
      sum_if_single cs vt.candidate hnd (hv vt (List.mem_cons_self vt rest))]
    simp [List.length_cons]

lemma totalVotesIn_cons (b : Block) (rest : List Block) :
    totalVotesIn (b :: rest) = b.votes.length + totalVotesIn rest := by
  rw [totalVotesIn, List.map_cons, List.sum_cons]
  rfl

lemma sum_countVotesFor (cs : List String) (hnd : cs.Nodup) :
    ∀ chain : List Block, (∀ b ∈ chain, ∀ vt ∈ b.votes, vt.candidate ∈ cs) →
      (cs.map fun c => countVotesFor c chain).sum = totalVotesIn chain := by
  intro chain
  induction chain with
  | nil =>
    intro _
    simp [countVotesFor, totalVotesIn]
  | cons b rest ih =>
    intro hv
    have h1 : (cs.map fun c => countVotesFor c (b :: rest))
        = cs.map fun c =>
            b.votes.countP (fun vt => vt.candidate == c)
              + countVotesFor c rest :=
      List.map_congr_left (fun c _ => countVotesFor_cons c b rest)
    rw [h1, sum_map_add,
      sum_countP_votes cs hnd b.votes (hv b (List.mem_cons_self b rest)),
      ih (fun b' hb' => hv b' (List.mem_cons_of_mem b hb')),
      totalVotesIn_cons]

lemma maxKeyAux_spec :
    ∀ (rest : List (String × Nat)) (bk : String) (bv : Nat),
      (maxKeyAux bk bv rest = bk ∧ ∀ p ∈ rest, p.2 ≤ bv) ∨
      (∃ pre m post, rest = pre ++ (maxKeyAux bk bv rest, m) :: post ∧
        bv < m ∧ (∀ p ∈ pre, p.2 < m) ∧ (∀ p ∈ post, p.2 ≤ m)) := by
  intro rest
  induction rest with
  | nil =>
    intro bk bv
    exact Or.inl ⟨rfl, fun p hp => absurd hp (List.not_mem_nil p)⟩
  | cons q rest ih =>
    intro bk bv
    obtain ⟨k, v⟩ := q
    rw [maxKeyAux]
    by_cases hbv : bv < v
    · rw [if_pos hbv]
      rcases ih k v with ⟨heq, hle⟩ | ⟨pre, m, post, heq, hvm, hpre, hpost⟩
      · right
        refine ⟨[], v, rest, ?_, hbv, fun p hp => absurd hp (List.not_mem_nil p), hle⟩
        rw [heq]
        rfl
      · right
        refine ⟨(k, v) :: pre, m, post, ?_, lt_trans hbv hvm, ?_, hpost⟩
        · rw [List.cons_append, ← heq]
        · intro p hp
          rcases List.mem_cons.mp hp with rfl | hp'
          · exact hvm
          · exact hpre p hp'
    · rw [if_neg hbv]
      have hvb : v ≤ bv := Nat.le_of_not_lt hbv
      rcases ih bk bv with ⟨heq, hle⟩ | ⟨pre, m, post, heq, hvm, hpre, hpost⟩
      · left
        refine ⟨heq, ?_⟩
        intro p hp
        rcases List.mem_cons.mp hp with rfl | hp'
        · exact hvb
        · exact hle p hp'
      · right
        refine ⟨(k, v) :: pre, m, post, by rw [List.cons_append, ← heq],
          hvm, ?_, hpost⟩
        intro p hp
        rcases List.mem_cons.mp hp with rfl | hp'
        · exact Nat.lt_of_le_of_lt hvb hvm
        · exact hpre p hp'

lemma maxKey_split (d : List (String × Nat)) (hne : d ≠ []) :
    ∃ w m pre post, maxKey d = some w ∧ d = pre ++ (w, m) :: post ∧
      (∀ p ∈ pre, p.2 < m) ∧ (∀ p ∈ d, p.2 ≤ m) := by
  match d, hne with
  | (k, v) :: rest, _ =>
    rw [maxKey]
    rcases maxKeyAux_spec rest k v with ⟨heq, hle⟩ |
      ⟨pre, m, post, heq, hvm, hpre, hpost⟩
    · refine ⟨maxKeyAux k v rest, v, [], rest, rfl, ?_, ?_, ?_⟩
      · rw [heq]
        rfl
      · intro p hp
        exact absurd hp (List.not_mem_nil p)
      · intro p hp
        rcases List.mem_cons.mp hp with rfl | hp'
        · exact le_refl v
        · exact hle p hp'
    · refine ⟨maxKeyAux k v rest, m, (k, v) :: pre, post, rfl, ?_, ?_, ?_⟩
      · rw [List.cons_append, ← heq]
      · intro p hp
        rcases List.mem_cons.mp hp with rfl | hp'
        · exact hvm
        · exact hpre p hp'
      · intro p hp
        rcases List.mem_cons.mp hp with rfl | hp'
        · exact le_of_lt hvm
        · rw [heq] at hp'
          rcases List.mem_append.mp hp' with h | h
          · exact le_of_lt (hpre p h)
          · rcases List.mem_cons.mp h with rfl | h'
            · exact le_refl m
            · exact hpost p h'

lemma map_eq_append_cons {α β : Type} (f : α → β) :
    ∀ (l : List α) (pre : List β) (x : β) (post : List β),
      l.map f = pre ++ x :: post →
      ∃ pre' a post', l = pre' ++ a :: post' ∧ pre'.map f = pre ∧
        f a = x ∧ post'.map f = post := by
  intro l
  induction l with
  | nil =>
    intro pre x post h
    rw [List.map_nil] at h
    exact absurd h.symm (by simp)
  | cons a l ih =>
    intro pre x post h
    cases pre with
    | nil =>
      simp only [List.map_cons, List.nil_append, List.cons.injEq] at h
      exact ⟨[], a, l, rfl, rfl, h.1, h.2⟩
    | cons y pre =>
      simp only [List.map_cons, List.cons_append, List.cons.injEq] at h
      obtain ⟨h1, h2⟩ := h
      obtain ⟨pre', a', post', hl, hp, hx, hq⟩ := ih pre x post h2
      exact ⟨a :: pre', a', post', by rw [List.cons_append, ← hl],
        by rw [List.map_cons, hp, h1], hx, hq⟩

lemma ger_reduce (s : VotingState) (fc : Bool) (counts : List (String × Nat))
    (h : tallyChain (initCounts s.candidates) s.chain = .ok counts) :
    get_election_results s fc =
      match maxKey counts with
      | none => .error .emptySequence
      | some w =>
        .ok { election_name := s.election_name
              total_votes := sumValues counts
              results := counts
              winner := w } := by
  rw [get_election_results, h]

lemma ger_reduce_err (s : VotingState) (fc : Bool) (e : TallyError)
    (h : tallyChain (initCounts s.candidates) s.chain = .error e) :
    get_election_results s fc = .error e := by
  rw [get_election_results, h]

lemma ger_ok (s : VotingState) (fc : Bool) (counts : List (String × Nat))
    (w : String) (h : tallyChain (initCounts s.candidates) s.chain = .ok counts)
    (hw : maxKey counts = some w) :
    get_election_results s fc =
      .ok { election_name := s.election_name
            total_votes := sumValues counts
            results := counts
            winner := w } := by
  rw [ger_reduce s fc counts h, hw]

lemma ger_empty (s : VotingState) (fc : Bool) (counts : List (String × Nat))
    (h : tallyChain (initCounts s.candidates) s.chain = .ok counts)
    (hw : maxKey counts = none) :
    get_election_results s fc = .error .emptySequence := by
  rw [ger_reduce s fc counts h, hw]

/-- A concrete stand-in digest function used only by the example states and
witnesses below. -/
def Hx : String → List Char := fun s => s.data

/-- A digest function whose every output meets the difficulty target, used
only by the proof-of-work witness. -/
def Hzeros : String → List Char := fun _ => ['0', '0', '0', '0']

/-- Example: a freshly initialized two-candidate election. -/
def sA : VotingState := initVotingSystem "E" ["Alice", "Bob"] 7 0

/-- Example: `sA` after `cast_vote("v1", "Alice")`. -/
def sB : VotingState := (cast_vote Hx sA "v1" "Alice" 1).2

/-- Example: `sB` after `cast_vote("v2", "Bob")`. -/
def sC : VotingState := (cast_vote Hx sB "v2" "Bob" 2).2

/-- Example: `sC` after `create_block(5, "h")`. -/
def sD : VotingState := (create_block sC 5 "h" 3).2

lemma cast_vote_ok_effects (H : String → List Char) (s : VotingState)
    (v c : String) (t : Nat) (vt : Vote) (s' : VotingState)
    (h : cast_vote H s v c t = (Except.ok vt, s')) :
    s'.candidates = s.candidates ∧ v ∈ s'.voted_voters := by
  unfold cast_vote at h
  by_cases h1 : c ∈ s.candidates
  · rw [if_pos h1] at h
    by_cases h2 : v ∈ s.voted_voters
    · rw [if_pos h2] at h
      exact absurd (congrArg Prod.fst h) (by simp)
    · rw [if_neg h2] at h
      have hs' : ({ s with
          pending_votes := s.pending_votes ++
            [{ voter_id := hash_voter_id H v, candidate := c,
               timestamp := t }]
          voted_voters := v :: s.voted_voters } : VotingState) = s' :=
        congrArg Prod.snd h
      rw [← hs']
      exact ⟨rfl, List.mem_cons_self v _⟩
  · rw [if_neg h1] at h
    exact absurd (congrArg Prod.fst h) (by simp)

/-- Claim C1 (counterexample): in the election `sA` with candidates
`["Alice", "Bob"]`, voter `"v1"` votes successfully for `"Alice"`; the
later call `cast_vote("v1", "Dave")` fails with `InvalidCandidate`, not
with `DuplicateVoter`, because the candidate check precedes the
double-vote check.  This refutes "every later call with the same id,
regardless of the candidate, fails with a DuplicateVoter error". -/
theorem cast_vote_second_vote_counterexample :
    (cast_vote Hx sA "v1" "Alice" 1).1 =
      Except.ok { voter_id := ['v', '1'], candidate := "Alice",
                  timestamp := 1 } ∧
    (cast_vote Hx sB "v1" "Dave" 2).1 =
      Except.error (VoteError.invalidCandidate ["Alice", "Bob"]) ∧
    (cast_vote Hx sB "v1" "Dave" 2).1 ≠
      Except.error VoteError.duplicateVoter := by
  refine ⟨rfl, rfl, ?_⟩
  intro h
  have h' := Except.error.inj h
  cases h'

/-- Claim C1 (amended): after a successful `cast_vote(v, c1)`, every later
call `cast_vote(v, c2)` fails, whatever operations happened in between:
with `DuplicateVoter` whenever `c2` is in the candidate set, and with
`InvalidCandidate` (which takes precedence) when it is not. -/
theorem cast_vote_rejects_second_vote (H : String → List Char)
    (s : VotingState) (v c1 c2 : String) (t1 t2 : Nat) (vt : Vote)
    (s' : VotingState) (ops : List Op)
    (h1 : cast_vote H s v c1 t1 = (Except.ok vt, s')) :
    (c2 ∈ s.candidates →
      (cast_vote H (run H s' ops) v c2 t2).1 =
        Except.error VoteError.duplicateVoter) ∧
    (c2 ∉ s.candidates →
      (cast_vote H (run H s' ops) v c2 t2).1 =
        Except.error (VoteError.invalidCandidate s.candidates)) := by
  obtain ⟨hcand, hmem⟩ := cast_vote_ok_effects H s v c1 t1 vt s' h1
  have hcands : (run H s' ops).candidates = s.candidates := by
    rw [run_candidates, hcand]
  have hvmem : v ∈ (run H s' ops).voted_voters := run_voted_mono H s' ops v hmem
  constructor
  · intro hc2
    unfold cast_vote
    rw [if_pos (by rw [hcands]; exact hc2), if_pos hvmem]
  · intro hc2
    unfold cast_vote
    rw [if_neg (by rw [hcands]; exact hc2), hcands]

/-- Witness for the amended C1 at a concrete election. -/
theorem cast_vote_rejects_second_vote_witness :
    (cast_vote Hx (run Hx sB []) "v1" "Alice" 5).1 =
      Except.error VoteError.duplicateVoter :=
  (cast_vote_rejects_second_vote Hx sA "v1" "Alice" "Alice" 1 5
    { voter_id := ['v', '1'], candidate := "Alice", timestamp := 1 } sB []
    rfl).1 (by decide)

/-- Claim C2: `cast_vote` with a candidate outside the configured set fails
with an `InvalidCandidate` error that carries (and whose message
enumerates) the configured candidate set, and leaves the whole state —
in particular the pending vote buffer and the voter registry —
unchanged. -/
theorem cast_vote_invalid_candidate (H : String → List Char)
    (s : VotingState) (v c : String) (t : Nat) (hc : c ∉ s.candidates) :
    cast_vote H s v c t =
      (Except.error (VoteError.invalidCandidate s.candidates), s) ∧
    (VoteError.invalidCandidate s.candidates).message =
      "Invalid candidate. Choose from: " ++ toString s.candidates := by
  refine ⟨?_, rfl⟩
  unfold cast_vote
  rw [if_neg hc]

/-- Witness for C2 at a concrete election. -/
theorem cast_vote_invalid_candidate_witness :
    cast_vote Hx sA "v9" "Dave" 4 =
      (Except.error (VoteError.invalidCandidate sA.candidates), sA) ∧
    (VoteError.invalidCandidate sA.candidates).message =
      "Invalid candidate. Choose from: " ++ toString sA.candidates :=
  cast_vote_invalid_candidate Hx sA "v9" "Dave" 4 (by decide)

/-- Claim C3: `create_block` always succeeds and builds a block with index
`len(chain) + 1`, the pending votes in admission order, and exactly the
supplied `proof` and `previous_hash` (no validity check on either); it
empties the pending buffer, appends exactly this block to the chain, and
the committed block is unaffected by any later operations. -/
theorem create_block_spec (H : String → List Char) (s : VotingState)
    (proof : Int) (previous_hash : String) (t : Nat) (ops : List Op) :
    ((create_block s proof previous_hash t).1).index = s.chain.length + 1 ∧
    ((create_block s proof previous_hash t).1).votes = s.pending_votes ∧
    ((create_block s proof previous_hash t).1).proof = proof ∧
    ((create_block s proof previous_hash t).1).previous_hash
      = previous_hash ∧
    ((create_block s proof previous_hash t).2).pending_votes = [] ∧
    ((create_block s proof previous_hash t).2).chain
      = s.chain ++ [(create_block s proof previous_hash t).1] ∧
    ((run H (create_block s proof previous_hash t).2 ops).chain).get?
        s.chain.length = some (create_block s proof previous_hash t).1 := by
  refine ⟨rfl, rfl, rfl, rfl, rfl, rfl, ?_⟩
  obtain ⟨rest, hrest⟩ :=
    run_chain_append H (create_block s proof previous_hash t).2 ops
  rw [hrest]
  show ((s.chain ++ [(create_block s proof previous_hash t).1]) ++ rest).get?
      s.chain.length = _
  rw [List.append_assoc, List.get?_append_right (le_refl s.chain.length)]
  simp

/-- Claim C4: `valid_proof(last_proof, proof)` returns true iff the digest
of the separator-free concatenation of the decimal representations of
`last_proof` and `proof` begins with a run of four zero characters.  As a
Lean function of its arguments and the digest function it is pure and
deterministic by construction. -/
theorem valid_proof_iff (H : String → List Char) (l p : Int) :
    valid_proof H l p = true ↔
      ∃ rest, H (toString l ++ toString p)
        = '0' :: '0' :: '0' :: '0' :: rest := by
  rw [valid_proof, decide_eq_true_eq]
  exact take_four_eq_iff _

/-- Claim C5: whenever some non-negative integer satisfies `valid_proof`,
the linear search of `proof_of_work` (run with enough fuel to reach that
integer) terminates with `some` result, and the result is the least
non-negative integer accepted by `valid_proof`. -/
theorem proof_of_work_least (H : String → List Char) (last_proof : Int)
    (x : Nat) (hx : valid_proof H last_proof (Int.ofNat x) = true) :
    ∃ y, proof_of_work H last_proof (x + 1) = some y ∧
      valid_proof H last_proof (Int.ofNat y) = true ∧
      ∀ z, z < y → valid_proof H last_proof (Int.ofNat z) = false := by
  obtain ⟨y, hy, hvy, _, hmin⟩ :=
    powLoopFuel_finds H last_proof (x + 1) 0 x (Nat.lt_succ_self x)
      (by simpa using hx)
  exact ⟨y, hy, hvy, fun z hz => hmin z (Nat.zero_le z) hz⟩

/-- Witness for C5 with a digest function that accepts immediately. -/
theorem proof_of_work_least_witness :
    ∃ y, proof_of_work Hzeros 0 (0 + 1) = some y ∧
      valid_proof Hzeros 0 (Int.ofNat y) = true ∧
      ∀ z, z < y → valid_proof Hzeros 0 (Int.ofNat z) = false :=
  proof_of_work_least Hzeros 0 0 (by decide)

/-- Claim C6: when the tally succeeds, `total_votes` equals the sum of the
per-candidate counters, each configured candidate's counter equals the
number of committed votes for it across all blocks, and hence
`total_votes` equals the total number of committed votes. -/
theorem results_total_eq_sum (s : VotingState) (fc : Bool)
    (hnd : s.candidates.Nodup) (hne : s.candidates ≠ [])
    (hv : ∀ b ∈ s.chain, ∀ vt ∈ b.votes, vt.candidate ∈ s.candidates) :
    ∃ r, get_election_results s fc = .ok r ∧
      r.total_votes = sumValues r.results ∧
      (∀ c ∈ s.candidates,
        dictGet r.results c = some (countVotesFor c s.chain)) ∧
      r.total_votes = totalVotesIn s.chain := by
  have hcounts := tally_counts s hnd hv
  have hdne : (s.candidates.map fun c => (c, countVotesFor c s.chain)) ≠ [] :=
    fun h => hne (List.map_eq_nil.mp h)
  obtain ⟨w, m, pre, post, hw, _, _, _⟩ := maxKey_split _ hdne
  refine ⟨_, ger_ok s fc _ w hcounts hw, rfl, ?_, ?_⟩
  · intro c hcmem
    show dictGet (s.candidates.map fun c => (c, countVotesFor c s.chain)) c
      = _
    rw [dictGet_map, if_pos hcmem]
  · show sumValues (s.candidates.map fun c => (c, countVotesFor c s.chain))
      = totalVotesIn s.chain
    rw [sumValues, List.map_map]
    exact sum_countVotesFor s.candidates hnd s.chain hv

/-- Witness for C6 on a concrete two-block, two-vote election. -/
theorem results_total_eq_sum_witness :
    ∃ r, get_election_results sD false = .ok r ∧
      r.total_votes = sumValues r.results ∧
      (∀ c ∈ sD.candidates,
        dictGet r.results c = some (countVotesFor c sD.chain)) ∧
      r.total_votes = totalVotesIn sD.chain :=
  results_total_eq_sum sD false (by decide) (by decide) (by decide)

/-- Claim C7: the winner's count is maximal among all configured
candidates, and the winner is the first candidate, in candidate-list
order, attaining that maximum: every candidate listed before the winner
has a strictly smaller count.  In particular winner selection is a
deterministic function of the state. -/
theorem results_winner_first_max (s : VotingState) (fc : Bool)
    (hnd : s.candidates.Nodup) (hne : s.candidates ≠ [])
    (hv : ∀ b ∈ s.chain, ∀ vt ∈ b.votes, vt.candidate ∈ s.candidates) :
    ∃ r, get_election_results s fc = .ok r ∧
      ∃ pre post, s.candidates = pre ++ r.winner :: post ∧
        (∀ c ∈ pre,
          countVotesFor c s.chain < countVotesFor r.winner s.chain) ∧
        (∀ c ∈ s.candidates,
          countVotesFor c s.chain ≤ countVotesFor r.winner s.chain) := by
  have hcounts := tally_counts s hnd hv
  have hdne : (s.candidates.map fun c => (c, countVotesFor c s.chain)) ≠ [] :=
    fun h => hne (List.map_eq_nil.mp h)
  obtain ⟨w, m, pre, post, hw, hsplit, hpre, hall⟩ := maxKey_split _ hdne
  obtain ⟨pre', cw, post', hcs, hpre', hfw, hpost'⟩ :=
    map_eq_append_cons (fun c => (c, countVotesFor c s.chain)) s.candidates
      pre (w, m) post hsplit
  have hcw : cw = w := congrArg Prod.fst hfw
  have hm : countVotesFor cw s.chain = m := congrArg Prod.snd hfw
  refine ⟨_, ger_ok s fc _ w hcounts hw, pre', post', ?_, ?_, ?_⟩
  · show s.candidates = pre' ++ w :: post'
    rw [← hcw]
    exact hcs
  · intro c hcmem
    show countVotesFor c s.chain < countVotesFor w s.chain
    have hmemp : (c, countVotesFor c s.chain) ∈ pre := by
      rw [← hpre']
      exact List.mem_map_of_mem _ hcmem
    have := hpre _ hmemp
    rw [← hcw, hm]
    exact this
  · intro c hcmem
    show countVotesFor c s.chain ≤ countVotesFor w s.chain
    have hmemc : (c, countVotesFor c s.chain)
        ∈ s.candidates.map fun c => (c, countVotesFor c s.chain) :=
      List.mem_map_of_mem _ hcmem
    have := hall _ hmemc
    rw [← hcw, hm]
    exact this

/-- Witness for C7 on a concrete election. -/
theorem results_winner_first_max_witness :
    ∃ r, get_election_results sD false = .ok r ∧
      ∃ pre post, sD.candidates = pre ++ r.winner :: post ∧
        (∀ c ∈ pre,
          countVotesFor c sD.chain < countVotesFor r.winner sD.chain) ∧
        (∀ c ∈ sD.candidates,
          countVotesFor c sD.chain ≤ countVotesFor r.winner sD.chain) :=
  results_winner_first_max sD false (by decide) (by decide) (by decide)

/-- Claim C8: initialization creates exactly the genesis block — index 1,
no votes, the fixed default proof 100 and the sentinel previous-hash
`"0"` — before any vote can be cast; the chain is append-only under every
operation; each `create_block` call grows it by exactly one block; and
the chain of any state reachable from initialization is never empty. -/
theorem chain_genesis_and_append_only (H : String → List Char) (nm : String)
    (cs : List String) (dur t : Nat) (s : VotingState) (p : Int)
    (ph : String) (t' : Nat) (ops : List Op) :
    (initVotingSystem nm cs dur t).chain =
      [{ index := 1, timestamp := t, votes := [], proof := 100,
         previous_hash := "0", election_name := nm }] ∧
    ((create_block s p ph t').2).chain
      = s.chain ++ [(create_block s p ph t').1] ∧
    ((create_block s p ph t').2).chain.length = s.chain.length + 1 ∧
    (∃ rest, (run H s ops).chain = s.chain ++ rest) ∧
    (run H (initVotingSystem nm cs dur t) ops).chain ≠ [] := by
  refine ⟨rfl, rfl, ?_, run_chain_append H s ops, ?_⟩
  · show (s.chain ++ [(create_block s p ph t').1]).length = s.chain.length + 1
    rw [List.length_append]
    rfl
  · obtain ⟨rest, hrest⟩ :=
      run_chain_append H (initVotingSystem nm cs dur t) ops
    rw [hrest]
    intro hcontra
    exact List.cons_ne_nil _ _ (List.append_eq_nil.mp hcontra).1

/-- Claim C9: the tally is a pure read.  Its result depends only on the
chain, the candidate list and the election name — in particular not on
the `force_close` flag, not on the election end time, and not on the
pending buffer or the voter registry — and, being a plain function of the
state, it mutates nothing. -/
theorem get_election_results_pure (s t : VotingState) (fc1 fc2 : Bool)
    (hchain : s.chain = t.chain) (hcand : s.candidates = t.candidates)
    (hname : s.election_name = t.election_name) :
    get_election_results s fc1 = get_election_results t fc2 := by
  rw [get_election_results, get_election_results, hchain, hcand, hname]

/-- Witness for C9: the force_close flag and the election end time make
no difference on a concrete state. -/
theorem get_election_results_pure_witness :
    get_election_results sD true =
      get_election_results
        { sD with election_end := 999, pending_votes := [],
                  voted_voters := [] } false :=
  get_election_results_pure sD _ true false rfl rfl rfl

lemma tallyChain_no_votes (d : List (String × Nat)) :
    ∀ chain : List Block, (∀ b ∈ chain, b.votes = []) →
      tallyChain d chain = .ok d := by
  intro chain
  induction chain with
  | nil => intro _; rfl
  | cons b rest ih =>
    intro h
    rw [tallyChain, h b (List.mem_cons_self b rest)]
    show tallyChain d rest = .ok d
    exact ih (fun b' hb' => h b' (List.mem_cons_of_mem b hb'))

lemma tallyChain_nil_counts :
    ∀ chain : List Block, tallyChain [] chain = .ok [] ∨
      ∃ k, tallyChain [] chain = .error (.keyError k) := by
  intro chain
  induction chain with
  | nil => exact Or.inl rfl
  | cons b rest ih =>
    cases hb : b.votes with
    | nil =>
      rw [tallyChain, hb]
      show tallyChain ([] : List (String × Nat)) rest = .ok [] ∨
        ∃ k, tallyChain ([] : List (String × Nat)) rest
          = .error (.keyError k)
      exact ih
    | cons vt vts =>
      rw [tallyChain, hb]
      exact Or.inr ⟨vt.candidate, rfl⟩

lemma dictSet_zero_head (k : String) (rest : List (String × Nat))
    (c : String) :
    ∃ rest', dictSet ((k, 0) :: rest) c 0 = (k, 0) :: rest' := by
  rw [dictSet]
  by_cases hkc : k = c
  · subst hkc
    rw [if_pos rfl]
    exact ⟨rest, rfl⟩
  · rw [if_neg hkc]
    exact ⟨dictSet rest c 0, rfl⟩

lemma foldl_zero_head (cs : List String) :
    ∀ (k : String) (rest : List (String × Nat)),
      ∃ rest', cs.foldl (fun d c => dictSet d c 0) ((k, 0) :: rest)
        = (k, 0) :: rest' := by
  induction cs with
  | nil => intro k rest; exact ⟨rest, rfl⟩
  | cons c cs ih =>
    intro k rest
    rw [List.foldl_cons]
    obtain ⟨rest', hr⟩ := dictSet_zero_head k rest c
    rw [hr]
    exact ih k rest'

lemma initCounts_head (c0 : String) (cs : List String) :
    ∃ rest, initCounts (c0 :: cs) = (c0, 0) :: rest := by
  rw [initCounts, List.foldl_cons]
  exact foldl_zero_head cs c0 []

lemma dictSet_zero_vals (d : List (String × Nat)) (c : String)
    (h : ∀ p ∈ d, p.2 = 0) : ∀ p ∈ dictSet d c 0, p.2 = 0 := by
  induction d with
  | nil =>
    intro p hp
    rcases List.mem_singleton.mp hp with rfl
    rfl
  | cons q rest ih =>
    obtain ⟨k', v'⟩ := q
    intro p hp
    rw [dictSet] at hp
    by_cases hk : k' = c
    · rw [if_pos hk] at hp
      rcases List.mem_cons.mp hp with rfl | hp'
      · rfl
      · exact h p (List.mem_cons_of_mem _ hp')
    · rw [if_neg hk] at hp
      rcases List.mem_cons.mp hp with rfl | hp'
      · exact h (k', v') (List.mem_cons_self _ _)
      · exact ih (fun q hq => h q (List.mem_cons_of_mem _ hq)) p hp'

lemma foldl_zero_vals :
    ∀ (cs : List String) (d : List (String × Nat)),
      (∀ p ∈ d, p.2 = 0) →
      ∀ p ∈ cs.foldl (fun d c => dictSet d c 0) d, p.2 = 0 := by
  intro cs
  induction cs with
  | nil => intro d h; exact h
  | cons c cs ih =>
    intro d h
    rw [List.foldl_cons]
    exact ih _ (dictSet_zero_vals d c h)

lemma initCounts_zero_vals (cs : List String) :
    ∀ p ∈ initCounts cs, p.2 = 0 :=
  foldl_zero_vals cs [] (fun p hp => absurd hp (List.not_mem_nil p))

/-- Claim C10: with an empty candidate list `get_election_results` always
fails (on an empty chain the failure is the `max` of an empty mapping;
with committed votes it is the earlier `KeyError`); with a non-empty
candidate list and no committed votes it succeeds and the winner is the
first candidate in candidate-list order. -/
theorem results_empty_candidates_default_winner (s : VotingState)
    (fc : Bool) :
    (s.candidates = [] → ∃ e, get_election_results s fc = .error e) ∧
    (∀ c0 cs, s.candidates = c0 :: cs → (∀ b ∈ s.chain, b.votes = []) →
      ∃ r, get_election_results s fc = .ok r ∧ r.winner = c0) := by
  constructor
  · intro hcs
    have hinit : initCounts s.candidates = [] := by rw [hcs]; rfl
    rcases tallyChain_nil_counts s.chain with h | ⟨k, h⟩
    · exact ⟨.emptySequence,
        ger_empty s fc [] (by rw [hinit]; exact h) rfl⟩
    · exact ⟨.keyError k, ger_reduce_err s fc _ (by rw [hinit]; exact h)⟩
  · intro c0 cs hcs hb
    obtain ⟨rest, hrest⟩ := initCounts_head c0 cs
    have htally : tallyChain (initCounts s.candidates) s.chain
        = .ok ((c0, 0) :: rest) := by
      rw [hcs, tallyChain_no_votes _ s.chain hb, hrest]
    have hvals : ∀ p ∈ (c0, 0) :: rest, p.2 = 0 := by
      rw [← hrest]
      exact fun p hp => initCounts_zero_vals (c0 :: cs) p hp
    have hw : maxKey ((c0, 0) :: rest) = some c0 := by
      rw [maxKey]
      congr 1
      rcases maxKeyAux_spec rest c0 0 with ⟨heq, _⟩ |
        ⟨pre, m, post, heq, hm, _, _⟩
      · exact heq
      · exfalso
        have hzero : ∀ q ∈ pre ++ (maxKeyAux c0 0 rest, m) :: post,
            q.2 = 0 := by
          rw [← heq]
          exact fun q hq => hvals q (List.mem_cons_of_mem _ hq)
        have := hzero (maxKeyAux c0 0 rest, m)
          (List.mem_append_right pre (List.mem_cons_self _ post))
        simp at this
        omega
    exact ⟨_, ger_ok s fc ((c0, 0) :: rest) c0 htally hw, rfl⟩

/-- Witness for C10 on the freshly initialized election `sA` (only the
empty genesis block, zero votes cast): the winner defaults to the first
candidate. -/
theorem results_empty_candidates_default_winner_witness :
    ∃ r, get_election_results sA false = .ok r ∧ r.winner = "Alice" :=
  (results_empty_candidates_default_winner sA false).2 "Alice" ["Bob"]
    rfl (by decide)
